import Mathlib

/-!
Verification of the TransTube chunked subtitle pipeline.

This file gives a shallow embedding of the core algorithms of the
repository and proves (or refutes) the specification's claims about them:

* `split_video`        — the chunk planner
  (backend/utils/processor.py, `VideoProcessor.split_video`);
* `merge_subtitles`    — the timeline reassembler
  (backend/utils/processor.py, `VideoProcessor.merge_subtitles`);
* `process_chunk`      — the per-chunk transcribe/translate pipeline
  (backend/utils/processor.py, `VideoProcessor.process_chunk`);
* `pool_gather`        — the `as_completed` gather loop of the worker pool
  (backend/utils/processor.py, `VideoProcessor.process_video`);
* `process_video`      — the top-level dispatcher
  (backend/utils/processor.py, `VideoProcessor.process_video`);
* `wrapLines` / `paginate_cue` — the bilingual wrapping and pagination
  engine (backend/utils/subtitle_embedder.py, `_wrap_line_by_eq`,
  `_measure_line_equivalent_chars` and `_wrap_srt_for_width`).

Modelling conventions:
* Python `int` seconds are modelled as `ℕ` (durations are non-negative).
* `datetime.timedelta` subtitle timestamps are exact integer microsecond
  counts; they are modelled as `ℤ`.
* The float arithmetic of the pagination engine is modelled by exact
  rational arithmetic (`ℚ`).  The per-page conversion
  `cur_end = cur_start + timedelta(seconds=dur)` additionally rounds
  each page duration to a whole number of microseconds (CPython rounds
  half to even); `paginate_cue_us` models this quantization over
  `ℤ`-microsecond timestamps, while `paginate_cue` is the idealized
  real-arithmetic allocation.
* A collaborator call that either returns a falsy path or fails to
  produce a file on disk is modelled as returning `none`.
-/

namespace TransTube

/-! ### Segmenter: `VideoProcessor.split_video`

```
chunk_count = (duration + self.chunk_duration - 1) // self.chunk_duration
for i in range(chunk_count):
    start_time = i * self.chunk_duration
    current_duration = min(self.chunk_duration, duration - start_time)
    chunks.append({"chunk_path": ..., "start_time": start_time,
                   "duration": current_duration, "index": i})
```
The ffmpeg invocation that materialises each chunk file is external I/O
and is not part of the plan arithmetic. -/

structure Chunk where
  start_time : ℕ
  duration : ℕ
  index : ℕ
deriving DecidableEq

def chunk_count (duration chunk_duration : ℕ) : ℕ :=
  (duration + chunk_duration - 1) / chunk_duration

def split_video (duration chunk_duration : ℕ) : List Chunk :=
  (List.range (chunk_count duration chunk_duration)).map fun i =>
    { start_time := i * chunk_duration
      duration := min chunk_duration (duration - i * chunk_duration)
      index := i }

theorem chunk_count_eq_ceilDiv (d cd : ℕ) : chunk_count d cd = d ⌈/⌉ cd := by
  rw [Nat.ceilDiv_eq_add_pred_div]; rfl

theorem split_video_length (d cd : ℕ) :
    (split_video d cd).length = chunk_count d cd := by
  simp [split_video]

theorem split_video_get (d cd : ℕ) (i : ℕ) (h : i < (split_video d cd).length) :
    (split_video d cd)[i] =
      { start_time := i * cd, duration := min cd (d - i * cd), index := i } := by
  simp [split_video]

theorem le_chunk_count_mul (d cd : ℕ) (hcd : 0 < cd) :
    d ≤ chunk_count d cd * cd := by
  rcases Nat.eq_zero_or_pos d with hd | hd
  · simp [hd]
  · have hcc : chunk_count d cd = (d - 1) / cd + 1 := by
      unfold chunk_count
      have h1 : d + cd - 1 = (d - 1) + cd := by omega
      rw [h1, Nat.add_div_right _ hcd]
    have hdm := Nat.div_add_mod (d - 1) cd
    have hlt := Nat.mod_lt (d - 1) hcd
    rw [hcc, Nat.add_mul, Nat.one_mul, Nat.mul_comm]
    omega

theorem sum_min_chunks (d cd : ℕ) (n : ℕ) :
    (((List.range n).map fun i => min cd (d - i * cd)).sum) = min d (n * cd) := by
  induction n with
  | zero => simp
  | succ n ih =>
    rw [List.range_succ, List.map_append, List.sum_append, ih]
    simp only [List.map_cons, List.map_nil, List.sum_cons, List.sum_nil]
    rw [Nat.succ_mul]
    omega

theorem split_video_sum (d cd : ℕ) (hcd : 0 < cd) :
    ((split_video d cd).map (fun c => c.duration)).sum = d := by
  unfold split_video
  rw [List.map_map]
  have : ((fun c : Chunk => c.duration) ∘ fun i =>
      ({ start_time := i * cd, duration := min cd (d - i * cd), index := i } : Chunk)) =
      fun i => min cd (d - i * cd) := rfl
  rw [this, sum_min_chunks]
  have := le_chunk_count_mul d cd hcd
  omega

theorem split_video_contiguous (d cd : ℕ) (hcd : 0 < cd) :
    List.Chain' (fun a b => a.start_time + a.duration = b.start_time)
      (split_video d cd) := by
  rw [List.chain'_iff_get]
  intro i h
  have hlen : (split_video d cd).length = chunk_count d cd := split_video_length d cd
  have hi : i < (split_video d cd).length := by omega
  have hi1 : i + 1 < (split_video d cd).length := by omega
  rw [List.get_eq_getElem, List.get_eq_getElem,
    split_video_get d cd i hi, split_video_get d cd (i + 1) hi1]
  simp only
  -- the non-final chunk has full length: (i+1) * cd ≤ d
  have hd : 0 < d := by
    by_contra hd0
    have hd0' : d = 0 := by omega
    subst hd0'
    have hz : chunk_count 0 cd = 0 := by
      unfold chunk_count
      exact Nat.div_eq_of_lt (by omega)
    rw [hz] at hlen
    omega
  have hcc : chunk_count d cd = (d - 1) / cd + 1 := by
    unfold chunk_count
    have h1 : d + cd - 1 = (d - 1) + cd := by omega
    rw [h1, Nat.add_div_right _ hcd]
  have hile : i + 1 ≤ (d - 1) / cd := by omega
  have : (i + 1) * cd ≤ ((d - 1) / cd) * cd := Nat.mul_le_mul_right cd hile
  have hdiv : ((d - 1) / cd) * cd ≤ d - 1 := Nat.div_mul_le_self (d - 1) cd
  have hfull : (i + 1) * cd ≤ d := by omega
  have : min cd (d - i * cd) = cd := by
    rw [Nat.add_mul, Nat.one_mul] at hfull
    omega
  rw [this]
  ring

/-- C4: for every totalDuration ≥ 0 and targetChunkLength > 0 the plan has
exactly ⌈totalDuration / targetChunkLength⌉ chunks, chunk i starts at
i × targetChunkLength and has length min(targetChunkLength, remaining),
consecutive chunks are contiguous, and the lengths sum to totalDuration. -/
theorem split_video_plan (d cd : ℕ) (hcd : 0 < cd) :
    (split_video d cd).length = d ⌈/⌉ cd ∧
    (∀ i (h : i < (split_video d cd).length),
        (split_video d cd)[i].start_time = i * cd ∧
        (split_video d cd)[i].duration = min cd (d - i * cd) ∧
        (split_video d cd)[i].index = i) ∧
    List.Chain' (fun a b => a.start_time + a.duration = b.start_time)
      (split_video d cd) ∧
    ((split_video d cd).map (fun c => c.duration)).sum = d := by
  refine ⟨?_, ?_, split_video_contiguous d cd hcd, split_video_sum d cd hcd⟩
  · rw [split_video_length, chunk_count_eq_ceilDiv]
  · intro i h
    rw [split_video_get d cd i h]
    exact ⟨rfl, rfl, rfl⟩

/-- Witness for C4: a 1200-second video with 300-second chunks plans
exactly 4 chunks whose lengths sum to 1200. -/
theorem split_video_plan_witness :
    (split_video 1200 300).length = 1200 ⌈/⌉ 300 ∧
    ((split_video 1200 300).map (fun c => c.duration)).sum = 1200 := by
  have h := split_video_plan 1200 300 (by decide)
  exact ⟨h.1, h.2.2.2⟩

/-! ### Timeline reassembler: `VideoProcessor.merge_subtitles`

```
all_subs = []
for path in subtitle_paths:
    subs = list(srt.parse(...)); all_subs.extend(subs)
all_subs.sort(key=lambda x: x.start)      # stable sort by start only
for i, sub in enumerate(all_subs, 1):
    sub.index = i
```
A parsed `srt.Subtitle` is modelled by `Sub`; its `timedelta` timestamps
are exact microsecond counts (`ℤ`).  Python's `list.sort` is a stable
sort; `List.insertionSort` with the non-strict key comparison is stable
in exactly the same sense (an element is inserted before the elements
with an equal key that came later in the list), so both produce the
unique start-sorted permutation that keeps equal-start cues in their
original relative order. -/

structure Sub where
  index : ℕ
  start : ℤ
  stop : ℤ
  content : String
deriving DecidableEq

/-- The sort key used by `all_subs.sort(key=lambda x: x.start)`. -/
def subLE (a b : Sub) : Prop := a.start ≤ b.start

instance : DecidableRel subLE := fun a b => Int.decLe a.start b.start

instance : IsTotal Sub subLE := ⟨fun a b => Int.le_total a.start b.start⟩

instance : IsTrans Sub subLE := ⟨fun _ _ _ h1 h2 => Int.le_trans h1 h2⟩

/-- Python `for i, sub in enumerate(all_subs, 1): sub.index = i`. -/
def reindexFrom (k : ℕ) : List Sub → List Sub
  | [] => []
  | s :: rest => { s with index := k } :: reindexFrom (k + 1) rest

def merge_subtitles (files : List (List Sub)) : List Sub :=
  reindexFrom 1 (List.insertionSort subLE files.flatten)

/-- The non-overlap property the spec demands of the merged timeline. -/
def nonOverlap (a b : Sub) : Prop := a.stop ≤ b.start

instance : DecidableRel nonOverlap := fun a b => Int.decLe a.stop b.start

/-- A cue with its index erased: what re-indexing must leave untouched. -/
def stripIndex (s : Sub) : ℤ × ℤ × String := (s.start, s.stop, s.content)

theorem reindexFrom_map_stripIndex (k : ℕ) (l : List Sub) :
    (reindexFrom k l).map stripIndex = l.map stripIndex := by
  induction l generalizing k with
  | nil => rfl
  | cons s rest ih => simp [reindexFrom, stripIndex, ih]

theorem reindexFrom_map_start (k : ℕ) (l : List Sub) :
    (reindexFrom k l).map (fun s => s.start) = l.map (fun s => s.start) := by
  induction l generalizing k with
  | nil => rfl
  | cons s rest ih => simp [reindexFrom, ih]

theorem reindexFrom_map_index (k : ℕ) (l : List Sub) :
    (reindexFrom k l).map (fun s => s.index) = List.range' k l.length := by
  induction l generalizing k with
  | nil => rfl
  | cons s rest ih => simp [reindexFrom, ih, List.range'_succ]

/-- C2 (amended): the merge stable-sorts the concatenated cues by `start`
and re-indexes them 1..N; it performs no overlap validation and no
normalization, so apart from the index field every cue passes through
unchanged (as a multiset), and the only ordering guarantee is
non-decreasing `start` values. -/
theorem merge_subtitles_sorted_no_validation (files : List (List Sub)) :
    List.Sorted (· ≤ ·) ((merge_subtitles files).map (fun s => s.start)) ∧
    ((merge_subtitles files).map stripIndex).Perm (files.flatten.map stripIndex) ∧
    (merge_subtitles files).map (fun s => s.index) =
      List.range' 1 files.flatten.length := by
  refine ⟨?_, ?_, ?_⟩
  · rw [merge_subtitles, reindexFrom_map_start, List.Sorted, List.pairwise_map]
    exact List.sorted_insertionSort subLE files.flatten
  · rw [merge_subtitles, reindexFrom_map_stripIndex]
    exact (List.perm_insertionSort subLE files.flatten).map stripIndex
  · rw [merge_subtitles, reindexFrom_map_index,
      (List.perm_insertionSort subLE files.flatten).length_eq]

/-- C2 counterexample: merging two chunk files whose cues overlap in time
produces a timeline that violates `cues[i].end ≤ cues[i+1].start`, and the
merge accepts it silently (offending cues returned unchanged). -/
theorem merge_subtitles_overlap_counterexample :
    merge_subtitles [[⟨1, 0, 10, "a"⟩], [⟨1, 5, 12, "b"⟩]] =
      [⟨1, 0, 10, "a"⟩, ⟨2, 5, 12, "b"⟩] ∧
    ¬ nonOverlap ((merge_subtitles [[⟨1, 0, 10, "a"⟩], [⟨1, 5, 12, "b"⟩]]).getD 0 ⟨0, 0, 0, ""⟩)
        ((merge_subtitles [[⟨1, 0, 10, "a"⟩], [⟨1, 5, 12, "b"⟩]]).getD 1 ⟨0, 0, 0, ""⟩) := by
  constructor
  · rfl
  · decide

/-- The strict comparison on starts, used to show that a start-sorted
permutation of cues with pairwise-distinct starts is unique. -/
def subLT (a b : Sub) : Prop := a.start < b.start

instance : IsAntisymm Sub subLT :=
  ⟨fun _ _ h1 h2 => absurd h2 (Int.not_lt.mpr (Int.le_of_lt h1))⟩

theorem perm_flatten {α : Type} {L₁ L₂ : List (List α)} (h : L₁.Perm L₂) :
    L₁.flatten.Perm L₂.flatten := by
  induction h with
  | nil => exact List.Perm.refl _
  | cons x _ ih => simpa using ih.append_left x
  | swap x y l =>
    simp only [List.flatten_cons, ← List.append_assoc]
    exact (List.perm_append_comm.append_right _)
  | trans _ _ ih1 ih2 => exact ih1.trans ih2

/-- C3 (amended): when the cues of the supplied files have pairwise
distinct start times, the merge result is the same for any supply order
of the files.  (At equal start times the stable sort keeps the supply
order, so the output does depend on it — see the counterexample.) -/
theorem merge_subtitles_deterministic (L₁ L₂ : List (List Sub))
    (hperm : L₁.Perm L₂)
    (hdist : L₁.flatten.Pairwise (fun a b => a.start ≠ b.start)) :
    merge_subtitles L₁ = merge_subtitles L₂ := by
  have hflat : L₁.flatten.Perm L₂.flatten := perm_flatten hperm
  have hp1 : (List.insertionSort subLE L₁.flatten).Perm L₁.flatten :=
    List.perm_insertionSort subLE L₁.flatten
  have hp2 : (List.insertionSort subLE L₂.flatten).Perm L₂.flatten :=
    List.perm_insertionSort subLE L₂.flatten
  have hs1 : List.Sorted subLE (List.insertionSort subLE L₁.flatten) :=
    List.sorted_insertionSort subLE L₁.flatten
  have hs2 : List.Sorted subLE (List.insertionSort subLE L₂.flatten) :=
    List.sorted_insertionSort subLE L₂.flatten
  have hd1 : (List.insertionSort subLE L₁.flatten).Pairwise
      (fun a b => a.start ≠ b.start) :=
    hdist.perm hp1.symm fun h => Ne.symm h
  have hd2 : (List.insertionSort subLE L₂.flatten).Pairwise
      (fun a b => a.start ≠ b.start) :=
    (hdist.perm hflat fun h => Ne.symm h).perm hp2.symm fun h => Ne.symm h
  have hstrict1 : List.Sorted subLT (List.insertionSort subLE L₁.flatten) :=
    (hs1.and hd1).imp fun h => lt_of_le_of_ne h.1 h.2
  have hstrict2 : List.Sorted subLT (List.insertionSort subLE L₂.flatten) :=
    (hs2.and hd2).imp fun h => lt_of_le_of_ne h.1 h.2
  have hpp : (List.insertionSort subLE L₁.flatten).Perm
      (List.insertionSort subLE L₂.flatten) :=
    hp1.trans (hflat.trans hp2.symm)
  have heq := List.eq_of_perm_of_sorted (r := subLT) hpp hstrict1 hstrict2
  unfold merge_subtitles
  rw [heq]

/-- Witness for the amended C3: two one-cue files with distinct starts
merge identically in either supply order. -/
theorem merge_subtitles_deterministic_witness :
    merge_subtitles [[⟨1, 0, 2, "a"⟩], [⟨1, 3, 5, "b"⟩]] =
      merge_subtitles [[⟨1, 3, 5, "b"⟩], [⟨1, 0, 2, "a"⟩]] :=
  merge_subtitles_deterministic _ _ (by decide) (by decide)

/-- C3 counterexample: with a tie on `start`, the merged output depends
on the order the chunk subtitle files are supplied in — there is no
(chunk index, cue index) tie-break in the code. -/
theorem merge_subtitles_order_counterexample :
    merge_subtitles [[⟨1, 0, 2, "a"⟩], [⟨1, 0, 2, "b"⟩]] ≠
      merge_subtitles [[⟨1, 0, 2, "b"⟩], [⟨1, 0, 2, "a"⟩]] := by
  decide

/-! ### Worker pool: the gather loop of `VideoProcessor.process_video`

```
with ThreadPoolExecutor(max_workers=self.max_workers) as executor:
    futures = [executor.submit(self.process_chunk, chunk, ...) for chunk in chunks]
    results = []
    for future in as_completed(futures):
        try:
            results.append(future.result())
        except Exception as e:
            raise
```
`as_completed` yields the futures in completion order, which is modelled
by the index list `order`.  When a future raised, the loop re-raises that
first error and the collected `results` are discarded.  Crucially, the
exception leaves the `with` block, which calls
`ThreadPoolExecutor.shutdown(wait=True)` *without* `cancel_futures`:
every submitted work item is still executed by the worker threads, so
the set of executed chunk tasks is always all of them — queued tasks are
not cancelled on failure. -/

/-- The gather loop over futures in completion order `order` (the i-th
completed future holds `outcomes[order[i]]`).  Indices out of range are
skipped; the fail-fast theorems only use genuine completion orders. -/
def pool_gather {E R : Type} (outcomes : List (Except E R)) : List ℕ → Except E (List R)
  | [] => Except.ok []
  | i :: rest =>
    match outcomes[i]? with
    | some (Except.error e) => Except.error e
    | some (Except.ok r) => (pool_gather outcomes rest).map (fun rs => r :: rs)
    | none => pool_gather outcomes rest

/-- The chunk tasks that actually run.  The executor is shut down with
`wait=True` and without `cancel_futures`, so every submitted task is
executed regardless of how many of them fail: nothing in the code
removes a queued work item. -/
def pool_executed {E R : Type} (outcomes : List (Except E R)) : List ℕ :=
  List.range outcomes.length

/-- The error of the first future, in completion order, that raised. -/
def firstError {E R : Type} (outcomes : List (Except E R)) (order : List ℕ) : Option E :=
  order.findSome? fun i =>
    match outcomes[i]? with
    | some (Except.error e) => some e
    | _ => none

/-- C5 (amended): if any chunk in the completion order failed, the gather
loop propagates the first such error, every already-collected result is
discarded (no `ok` value, hence no partial merged timeline, can be
returned) — but the queued chunk tasks are *not* cancelled: all submitted
tasks still execute. -/
theorem pool_fail_fast {E R : Type} (outcomes : List (Except E R)) (order : List ℕ)
    (e : E) (h : firstError outcomes order = some e) :
    pool_gather outcomes order = Except.error e ∧
    (∀ rs : List R, pool_gather outcomes order ≠ Except.ok rs) ∧
    pool_executed outcomes = List.range outcomes.length := by
  have hmain : pool_gather outcomes order = Except.error e := by
    induction order with
    | nil => simp [firstError] at h
    | cons i rest ih =>
      rw [firstError, List.findSome?_cons] at h
      rw [pool_gather]
      cases houtcome : outcomes[i]? with
      | none =>
        rw [houtcome] at h
        exact ih h
      | some o =>
        cases o with
        | error e' =>
          rw [houtcome] at h
          simp at h
          rw [h]
        | ok r =>
          rw [houtcome] at h
          simp only at h
          rw [ih h]
          rfl
  refine ⟨hmain, ?_, rfl⟩
  intro rs hok
  rw [hmain] at hok
  exact Except.noConfusion hok

/-- Witness for the amended C5: two chunks, the first completed future
raised `TranscriptionError`; the pool returns that error, returns no
result list, and still executes both tasks. -/
theorem pool_fail_fast_witness :
    pool_gather (E := String) (R := List Sub)
        [Except.error "TranscriptionError", Except.ok [⟨1, 0, 1, "hi"⟩]] [0, 1] =
      Except.error "TranscriptionError" ∧
    pool_executed (E := String) (R := List Sub)
        [Except.error "TranscriptionError", Except.ok [⟨1, 0, 1, "hi"⟩]] =
      List.range 2 :=
  ⟨(pool_fail_fast _ [0, 1] "TranscriptionError" (by decide)).1,
   (pool_fail_fast _ [0, 1] "TranscriptionError" (by decide)).2.2⟩

/-- C5 counterexample: chunk 0 fails while chunk 1 is still queued
(sequential completion order), yet chunk task 1 is executed anyway —
the claim that queued tasks are not started is false.  The error itself
is propagated and no result list is produced. -/
theorem pool_no_cancel_counterexample :
    1 ∈ pool_executed (E := String) (R := List Sub)
        [Except.error "TranscriptionError", Except.ok [⟨1, 0, 1, "hi"⟩]] ∧
    pool_gather (E := String) (R := List Sub)
        [Except.error "TranscriptionError", Except.ok [⟨1, 0, 1, "hi"⟩]] [0, 1] =
      Except.error "TranscriptionError" := by
  constructor
  · decide
  · rfl

/-! ### Per-chunk pipeline: `VideoProcessor.process_chunk`

```
srt_path = transcribe_func(chunk["chunk_path"])
if not srt_path or not os.path.exists(srt_path):
    raise Exception("转录失败: 未生成有效的字幕文件")
zh_srt_path = translate_func(srt_path)
if not zh_srt_path or not os.path.exists(zh_srt_path):
    raise Exception("翻译失败: 未生成有效的字幕文件")
return {**chunk, "srt_path": srt_path, "zh_srt_path": zh_srt_path}
```
A collaborator is modelled as returning `some cues` (the parsed content
of the file it produced) or `none` (falsy path / missing file).  The only
validation performed is this existence check: the cue lists themselves
are never compared. -/

def chunkMediaPath (i : ℕ) : String := "chunk_" ++ toString i ++ ".mp4"

def process_chunk (c : Chunk) (transcribeF : String → Option (List Sub))
    (translateF : List Sub → Option (List Sub)) :
    Except String (Chunk × List Sub × List Sub) :=
  match transcribeF (chunkMediaPath c.index) with
  | none => Except.error "转录失败: 未生成有效的字幕文件"
  | some cues =>
    match translateF cues with
    | none => Except.error "翻译失败: 未生成有效的字幕文件"
    | some zh => Except.ok (c, cues, zh)

/-- C6 (amended): `process_chunk` only checks that the transcription and
translation steps produced a file; whatever cue list the translation
returned is accepted verbatim, with no cardinality comparison against
its input. -/
theorem process_chunk_no_cardinality_check (c : Chunk)
    (transcribeF : String → Option (List Sub))
    (translateF : List Sub → Option (List Sub)) (cues zh : List Sub)
    (ht : transcribeF (chunkMediaPath c.index) = some cues)
    (hl : translateF cues = some zh) :
    process_chunk c transcribeF translateF = Except.ok (c, cues, zh) := by
  rw [process_chunk, ht]
  simp only
  rw [hl]

def fiveCues : List Sub :=
  [⟨1, 0, 1, "a"⟩, ⟨2, 1, 2, "b"⟩, ⟨3, 2, 3, "c"⟩, ⟨4, 3, 4, "d"⟩, ⟨5, 4, 5, "e"⟩]

def fourCues : List Sub :=
  [⟨1, 0, 1, "甲"⟩, ⟨2, 1, 2, "乙"⟩, ⟨3, 2, 3, "丙"⟩, ⟨4, 3, 4, "丁"⟩]

/-- Witness for the amended C6: a 5-cue transcript translated into a
4-cue file is passed through unchanged. -/
theorem process_chunk_no_cardinality_check_witness :
    process_chunk ⟨0, 300, 0⟩ (fun _ => some fiveCues) (fun _ => some fourCues) =
      Except.ok (⟨0, 300, 0⟩, fiveCues, fourCues) :=
  process_chunk_no_cardinality_check ⟨0, 300, 0⟩ _ _ fiveCues fourCues rfl rfl

/-- C6 counterexample: a translation stage returning 4 cues for a 5-cue
input is *not* rejected — `process_chunk` succeeds, so no
cardinality-mismatch error exists in the pipeline. -/
theorem process_chunk_cardinality_counterexample :
    process_chunk ⟨0, 300, 0⟩ (fun _ => some fiveCues) (fun _ => some fourCues) =
      Except.ok (⟨0, 300, 0⟩, fiveCues, fourCues) ∧
    fourCues.length ≠ fiveCues.length := by
  exact ⟨rfl, by decide⟩

/-! ### Top-level dispatcher: `VideoProcessor.process_video`

```
video_name = os.path.basename(video_path)
if ".sub.mp4" in video_name:
    srt_path = os.path.splitext(video_path)[0] + ".srt"
    if not os.path.exists(srt_path):
        srt_path = os.path.join(os.path.dirname(video_path),
                                os.path.splitext(os.path.basename(video_path))[0] + ".srt")
        open(srt_path, "w").write("")
    return video_path, srt_path
duration = self.get_video_duration(video_path)
if duration < 1200:
    srt_path = transcribe_func(video_path); ...
    zh_srt_path = translate_func(srt_path); ...
    output_video = burn_subtitle(video_path, zh_srt_path)
    return output_video, zh_srt_path
chunks = self.split_video(video_path)
... ThreadPoolExecutor gather (see pool_gather) ...
```
Paths are modelled as character lists with the relevant `os.path`
primitives (`basename`, `dirname`, `join`, `splitext`) reimplemented
from posixpath semantics.  External collaborators are bundled in
`Collab`; the trace of collaborator invocations is returned as a list of
events, so "the splitter / the pool / transcription was never invoked"
is the absence of the corresponding event. -/

def basenameChars (p : List Char) : List Char :=
  (p.reverse.takeWhile (fun c => c ≠ '/')).reverse

/-- Everything up to and including the last `/` (the raw head of
`posixpath.split`). -/
def headPart (p : List Char) : List Char :=
  p.take (p.length - (basenameChars p).length)

/-- Python `os.path.dirname`: the raw head, with trailing slashes stripped
unless it consists only of slashes. -/
def dirnameChars (p : List Char) : List Char :=
  let head := headPart p
  if head ≠ [] ∧ ¬ head.all (fun c => c = '/') then
    (head.reverse.dropWhile (fun c => c = '/')).reverse
  else head

/-- Python `posixpath.join` for two components. -/
def joinPathChars (a b : List Char) : List Char :=
  if b.head? = some '/' then b
  else if a = [] ∨ a.getLast? = some '/' then a ++ b
  else a ++ '/' :: b

/-- Python `os.path.splitext` applied to a basename: split at the last dot,
unless every character before it is a dot (then there is no extension). -/
def splitextBase (b : List Char) : List Char × List Char :=
  let afterRev := b.reverse.takeWhile (fun c => c ≠ '.')
  if afterRev.length = b.length then (b, [])
  else
    let root := (b.reverse.drop (afterRev.length + 1)).reverse
    if root.all (fun c => c = '.') then (b, [])
    else (root, '.' :: afterRev.reverse)

/-- Python `os.path.splitext(p)[0]` for a full path. -/
def splitextRootChars (p : List Char) : List Char :=
  headPart p ++ (splitextBase (basenameChars p)).1

/-- Substring test, as Python's `needle in haystack`. -/
def containsSeq (needle : List Char) : List Char → Bool
  | [] => needle.isEmpty
  | c :: rest => needle.isPrefixOf (c :: rest) || containsSeq needle rest

/-- The subtitle path computed at processor.py line 265:
`os.path.splitext(video_path)[0] + ".srt"`. -/
def srtSibling1 (p : String) : String :=
  (splitextRootChars p.data).asString ++ ".srt"

/-- The subtitle path computed at processor.py line 268:
`os.path.join(os.path.dirname(video_path),
os.path.splitext(os.path.basename(video_path))[0] + ".srt")`. -/
def srtSibling2 (p : String) : String :=
  (joinPathChars (dirnameChars p.data)
    ((splitextBase (basenameChars p.data)).1 ++ ".srt".data)).asString

/-- Collaborator invocations recorded while `process_video` runs. -/
inductive Ev where
  | split
  | chunkTask (i : ℕ)
  | transcribe (p : String)
  | translate (p : String)
  | burn (p : String)
  | mkEmptySrt (p : String)
deriving DecidableEq

/-- The external collaborators of `process_video`: probe result, file
existence, transcription, translation, burning, the per-chunk pipeline
outcome and the completion order of the pool's futures. -/
structure Collab where
  fileExists : String → Bool
  duration : ℕ
  chunk_duration : ℕ
  transcribe : String → Option String
  translate : String → Option String
  burn : String → String → Option String
  chunk_outcome : ℕ → Except String (String × String)
  completion_order : List ℕ

def process_video (p : String) (C : Collab) :
    Except String (String × String) × List Ev :=
  if containsSeq ".sub.mp4".data (basenameChars p.data) then
    let srt1 := srtSibling1 p
    if C.fileExists srt1 then (Except.ok (p, srt1), [])
    else (Except.ok (p, srtSibling2 p), [Ev.mkEmptySrt (srtSibling2 p)])
  else if C.duration < 1200 then
    match C.transcribe p with
    | none => (Except.error "转录失败: 未生成有效的字幕文件", [Ev.transcribe p])
    | some srt =>
      match C.translate srt with
      | none => (Except.error "翻译失败: 未生成有效的字幕文件",
          [Ev.transcribe p, Ev.translate srt])
      | some zh =>
        match C.burn p zh with
        | none => (Except.error "字幕烧录失败，输出文件不存在",
            [Ev.transcribe p, Ev.translate srt, Ev.burn zh])
        | some out => (Except.ok (out, zh),
            [Ev.transcribe p, Ev.translate srt, Ev.burn zh])
  else
    let chunks := split_video C.duration C.chunk_duration
    let evs := Ev.split :: chunks.map (fun c => Ev.chunkTask c.index)
    match pool_gather (chunks.map fun c => C.chunk_outcome c.index)
        C.completion_order with
    | Except.error e => (Except.error e, evs)
    | Except.ok _ =>
      match C.burn p "merged.srt" with
      | none => (Except.error "字幕烧录失败，输出文件不存在", evs ++ [Ev.burn "merged.srt"])
      | some out => (Except.ok (out, "merged.srt"), evs ++ [Ev.burn "merged.srt"])

/-- C9 (amended): for a video whose *filename does not contain*
`.sub.mp4` and whose duration is below 1200 seconds, chunking is
bypassed entirely — no split event, no chunk task event — and the whole
video is transcribed in one pass (exactly one transcription call, on the
full video path), with the transcript translated when transcription
succeeded. -/
theorem process_video_short_direct (p : String) (C : Collab)
    (hname : containsSeq ".sub.mp4".data (basenameChars p.data) = false)
    (hdur : C.duration < 1200) :
    Ev.split ∉ (process_video p C).2 ∧
    (∀ i, Ev.chunkTask i ∉ (process_video p C).2) ∧
    Ev.transcribe p ∈ (process_video p C).2 ∧
    (∀ q, Ev.transcribe q ∈ (process_video p C).2 → q = p) ∧
    (∀ srt, C.transcribe p = some srt → Ev.translate srt ∈ (process_video p C).2) := by
  rw [process_video]
  rw [hname]
  simp only [Bool.false_eq_true, if_false, if_pos hdur]
  rcases h1 : C.transcribe p with _ | srt
  · refine ⟨by simp, fun i => by simp, by simp, ?_, ?_⟩
    · intro q hq
      simp at hq
      exact hq
    · intro srt' hsrt'
      exact absurd hsrt' (by simp)
  · rcases h2 : C.translate srt with _ | zh
    · simp only [h2]
      refine ⟨by simp, fun i => by simp, by simp, ?_, ?_⟩
      · intro q hq
        simp at hq
        tauto
      · intro srt' hsrt'
        cases hsrt'
        simp
    · rcases h3 : C.burn p zh with _ | out <;>
        simp only [h2, h3] <;>
        refine ⟨by simp, fun i => by simp, by simp, ?_, ?_⟩
      · intro q hq
        simp at hq
        tauto
      · intro srt' hsrt'
        cases hsrt'
        simp
      · intro q hq
        simp at hq
        tauto
      · intro srt' hsrt'
        cases hsrt'
        simp

def demoCollab : Collab where
  fileExists := fun _ => true
  duration := 100
  chunk_duration := 300
  transcribe := fun _ => some "video.srt"
  translate := fun _ => some "video.zh.srt"
  burn := fun _ _ => some "video.sub.mp4"
  chunk_outcome := fun _ => Except.ok ("", "")
  completion_order := []

/-- Witness for the amended C9: a 100-second video with an ordinary name
is processed directly, with no split event emitted. -/
theorem process_video_short_direct_witness :
    Ev.split ∉ (process_video "video.mp4" demoCollab).2 ∧
    Ev.transcribe "video.mp4" ∈ (process_video "video.mp4" demoCollab).2 :=
  ⟨(process_video_short_direct "video.mp4" demoCollab (by decide) (by decide)).1,
   (process_video_short_direct "video.mp4" demoCollab (by decide) (by decide)).2.2.1⟩

/-- C9 counterexample: a 100-second video named `a.sub.mp4` is below the
threshold, yet it is never transcribed at all — the early `.sub.mp4`
return fires before the duration check, so the claim "every video below
the threshold is transcribed and translated in a single whole-video
pass" is false as stated. -/
theorem process_video_short_counterexample :
    demoCollab.duration < 1200 ∧
    (process_video "a.sub.mp4" demoCollab).2 = [] ∧
    Ev.transcribe "a.sub.mp4" ∉ (process_video "a.sub.mp4" demoCollab).2 := by
  refine ⟨by decide, rfl, ?_⟩
  intro h
  rw [show (process_video "a.sub.mp4" demoCollab).2 = [] from rfl] at h
  exact List.not_mem_nil _ h

/-- C10: for any video whose filename contains `.sub.mp4`, the pipeline
returns immediately: the result is the unchanged input video path, no
split/chunk/transcribe/translate/burn event is emitted, and the returned
subtitle path is the existing sibling `.srt` (when present) or a newly
created empty one (the only event is its creation). -/
theorem process_video_presubbed (p : String) (C : Collab)
    (h : containsSeq ".sub.mp4".data (basenameChars p.data) = true) :
    (C.fileExists (srtSibling1 p) = true →
      process_video p C = (Except.ok (p, srtSibling1 p), [])) ∧
    (C.fileExists (srtSibling1 p) = false →
      process_video p C = (Except.ok (p, srtSibling2 p), [Ev.mkEmptySrt (srtSibling2 p)])) := by
  constructor
  · intro hex
    rw [process_video, h]
    simp [hex]
  · intro hex
    rw [process_video, h]
    simp [hex]

def noSrtCollab : Collab :=
  { demoCollab with fileExists := fun _ => false }

/-- Witness for C10: `/tmp/a.sub.mp4` with no sibling subtitle file
returns unchanged together with a freshly created empty
`/tmp/a.sub.srt`. -/
theorem process_video_presubbed_witness :
    process_video "/tmp/a.sub.mp4" noSrtCollab =
      (Except.ok ("/tmp/a.sub.mp4", "/tmp/a.sub.srt"),
        [Ev.mkEmptySrt "/tmp/a.sub.srt"]) := by
  have h := (process_video_presubbed "/tmp/a.sub.mp4" noSrtCollab (by decide)).2 rfl
  have h2 : srtSibling2 "/tmp/a.sub.mp4" = "/tmp/a.sub.srt" := by decide
  rw [h2] at h
  exact h

/-! ### Bilingual wrapping and pagination: `subtitle_embedder.py`

`_measure_line_equivalent_chars` weighs each character: newline 0 (it is
skipped), CJK (U+4E00..U+9FFF) 1.0, other ASCII 0.6, anything else 0.8.
`_wrap_line_by_eq` strips the text, splits it into whitespace tokens and
greedily packs either tokens (when there are at least two) or single
characters into lines bounded by `max_eq`.  `_wrap_srt_for_width`
(bilingual branch) zips the wrapped English/Chinese line lists into
pages and redistributes the cue's time across them proportionally to
page widths, with a floor `min_page * ratio` and with the last page
taking exactly the remaining time.  Python floats / `timedelta` are
modelled by exact rationals; texts are character lists. -/

def charWidth (c : Char) : ℚ :=
  if c = '\n' then 0
  else if 0x4e00 ≤ c.toNat ∧ c.toNat ≤ 0x9fff then 1
  else if c.toNat ≤ 127 then 6 / 10
  else 8 / 10

/-- Models `_measure_line_equivalent_chars`. -/
def eqLen (s : List Char) : ℚ := (s.map charWidth).sum

/-- The whitespace characters of Python's `str.split()` / `str.strip()`
(the rare non-ASCII Unicode whitespace is not modelled). -/
def isPySpace (c : Char) : Bool :=
  c = ' ' || c = '\t' || c = '\n' || c = '\r' || c = '\x0b' || c = '\x0c'

/-- Python `text.strip()`. -/
def pyStrip (s : List Char) : List Char :=
  ((s.dropWhile isPySpace).reverse.dropWhile isPySpace).reverse

/-- Python `text.split()`: maximal runs of non-whitespace characters, collected
with an accumulator holding the current run in reverse. -/
def tokensAcc : List Char → List Char → List (List Char)
  | [], acc => if acc = [] then [] else [acc.reverse]
  | c :: rest, acc =>
    if isPySpace c then
      if acc = [] then tokensAcc rest [] else acc.reverse :: tokensAcc rest []
    else tokensAcc rest (c :: acc)

/-- Python `text.split()`. -/
def tokens (s : List Char) : List (List Char) := tokensAcc s []

/-- The word-packing loop of `_wrap_line_by_eq` (the `len(tokens) > 1`
branch); `cur` is the line under construction:
```
pending = (cur + (' ' if cur else '') + tok)
if eq_len(pending) <= max_eq or not cur: cur = pending
else: lines.append(cur); cur = tok
```
-/
def wrapWords (maxEq : ℚ) : List (List Char) → List Char → List (List Char)
  | [], cur => if cur = [] then [] else [cur]
  | tok :: rest, cur =>
    let pending := if cur = [] then tok else cur ++ ' ' :: tok
    if eqLen pending ≤ maxEq ∨ cur = [] then wrapWords maxEq rest pending
    else cur :: wrapWords maxEq rest tok

/-- The character-packing loop of `_wrap_line_by_eq` (the no-spaces
branch). -/
def wrapChars (maxEq : ℚ) : List Char → List Char → List (List Char)
  | [], cur => if cur = [] then [] else [cur]
  | ch :: rest, cur =>
    let pending := cur ++ [ch]
    if eqLen pending ≤ maxEq ∨ cur = [] then wrapChars maxEq rest pending
    else cur :: wrapChars maxEq rest [ch]

/-- Models `_wrap_line_by_eq` as the list of produced lines (the Python function
returns them joined by `"\n"`; no produced line contains a newline, so
the join/split round-trip in `_split_bilingual_pages` is the identity on
this list). -/
def wrapLines (maxEq : ℚ) (text : List Char) : List (List Char) :=
  let t := pyStrip text
  if t = [] then []
  else
    let toks := tokens t
    if 1 < toks.length then wrapWords maxEq toks []
    else wrapChars maxEq t []

/-- Models the newline split that the caller applies to the joined
wrapped text: when the wrapped text is empty, the Python split yields a
single empty line. -/
def wrapPages (maxEq : ℚ) (text : List Char) : List (List Char) :=
  let ls := wrapLines maxEq text
  if ls = [] then [[]] else ls

/-- Models `_split_bilingual_pages(en_line, zh_line)`. -/
def splitBilingualPages (maxEq : ℚ) (en zh : List Char) :
    List (List Char × List Char) :=
  let ew := if en = [] then [] else wrapPages maxEq en
  let zw := if zh = [] then [] else wrapPages maxEq zh
  let n0 := max ew.length zw.length
  let n := if n0 = 0 then 1 else n0
  (List.range n).map fun i => (ew.getD i [], zw.getD i [])

/-- Python `(_eq_units(a) + _eq_units(b)) or 1.0`. -/
def unitsOf (a b : List Char) : ℚ :=
  let u := eqLen a + eqLen b
  if u = 0 then 1 else u

/-- Python `(en_i + ("\n" if zh_i else "") + zh_i).strip()`. -/
def pageText (a b : List Char) : List Char :=
  pyStrip (a ++ (if b = [] then [] else ['\n']) ++ b)

/-- A time-sliced page of a bilingual cue. -/
structure Page where
  start : ℚ
  stop : ℚ
  content : List Char
deriving DecidableEq

/-- The per-page time-allocation loop of `_wrap_srt_for_width`:
```
units = (_eq_units(en_i) + _eq_units(zh_i)) or 1.0
dur = (units / total_units) * total_sec
dur = max(min_page * ratio, dur)
if idx == len(pages) - 1: dur = total_sec - acc
cur_end = cur_start + timedelta(seconds=dur)
...
cur_start = cur_end; acc += dur
```
Here the `timedelta(seconds=dur)` conversion is idealized to exact
rational addition; `allocGoUs` below refines this loop with CPython's
rounding of each page duration to whole microseconds, which is what the
program actually computes. -/
def allocGo (totalSec totalUnits minPage ratio : ℚ) :
    List (List Char × List Char) → ℚ → ℚ → List Page
  | [], _, _ => []
  | [(a, b)], cur, acc => [⟨cur, cur + (totalSec - acc), pageText a b⟩]
  | (a, b) :: q :: rest, cur, acc =>
    let units := unitsOf a b
    let dur := max (minPage * ratio) (units / totalUnits * totalSec)
    ⟨cur, cur + dur, pageText a b⟩ ::
      allocGo totalSec totalUnits minPage ratio (q :: rest) (cur + dur) (acc + dur)

/-- The bilingual branch of `_wrap_srt_for_width` for one cue: split the
two text lines into pages, then redistribute `[start, stop]` across
them.  `total_sec = (sub.end - sub.start).total_seconds() or 0.001`;
`ratio = 1.0 if total_sec >= min_page * len(pages) else total_sec / need`. -/
def paginate_cue (start stop : ℚ) (en zh : List Char) (maxEq minPage : ℚ) :
    List Page :=
  let pages := splitBilingualPages maxEq en zh
  let totalUnits :=
    let s := (pages.map fun pg => unitsOf pg.1 pg.2).sum
    if s = 0 then 1 else s
  let totalSec := if stop - start = 0 then 1 / 1000 else stop - start
  let need := minPage * pages.length
  let ratio := if need ≤ totalSec then 1 else totalSec / need
  allocGo totalSec totalUnits minPage ratio pages start 0

/-- CPython's conversion of a float `seconds` argument to a `timedelta`
rounds it to a whole number of microseconds, halves to the even
neighbour (round-half-even). -/
def roundHalfEven (q : ℚ) : ℤ :=
  if q - ⌊q⌋ < 1 / 2 then ⌊q⌋
  else if 1 / 2 < q - ⌊q⌋ then ⌊q⌋ + 1
  else if ⌊q⌋ % 2 = 0 then ⌊q⌋ else ⌊q⌋ + 1

/-- A time-sliced page with its boundaries as `timedelta` values, i.e.
whole microsecond counts. -/
structure PageUs where
  start : ℤ
  stop : ℤ
  content : List Char
deriving DecidableEq

/-- The time-allocation loop of `_wrap_srt_for_width` with the
`timedelta` arithmetic made explicit: each page boundary
`cur_end = cur_start + timedelta(seconds=dur)` is the previous boundary
plus the page's float duration rounded to whole microseconds, while the
running float total `acc += dur` stays unrounded. -/
def allocGoUs (totalSec totalUnits minPage ratio : ℚ) :
    List (List Char × List Char) → ℤ → ℚ → List PageUs
  | [], _, _ => []
  | [(a, b)], cur, acc =>
    [⟨cur, cur + roundHalfEven ((totalSec - acc) * 1000000), pageText a b⟩]
  | (a, b) :: q :: rest, cur, acc =>
    let units := unitsOf a b
    let dur := max (minPage * ratio) (units / totalUnits * totalSec)
    ⟨cur, cur + roundHalfEven (dur * 1000000), pageText a b⟩ ::
      allocGoUs totalSec totalUnits minPage ratio (q :: rest)
        (cur + roundHalfEven (dur * 1000000)) (acc + dur)

/-- The bilingual branch of `_wrap_srt_for_width` for one cue, over
integer-microsecond (`timedelta`) cue boundaries: identical to
`paginate_cue` except that the page boundaries are quantized to whole
microseconds exactly as `cur_start + timedelta(seconds=dur)` computes
them.  `total_sec = (sub.end - sub.start).total_seconds()` is the
microsecond difference divided by 10^6. -/
def paginate_cue_us (start stop : ℤ) (en zh : List Char) (maxEq minPage : ℚ) :
    List PageUs :=
  let pages := splitBilingualPages maxEq en zh
  let totalUnits :=
    let s := (pages.map fun pg => unitsOf pg.1 pg.2).sum
    if s = 0 then 1 else s
  let totalSec :=
    let t := ((stop - start : ℤ) : ℚ) / 1000000
    if t = 0 then 1 / 1000 else t
  let need := minPage * pages.length
  let ratio := if need ≤ totalSec then 1 else totalSec / need
  allocGoUs totalSec totalUnits minPage ratio pages start 0

theorem allocGo_spec (totalSec totalUnits minPage ratio : ℚ) :
    ∀ (pages : List (List Char × List Char)) (cur acc : ℚ), pages ≠ [] →
      allocGo totalSec totalUnits minPage ratio pages cur acc ≠ [] ∧
      (∀ p, (allocGo totalSec totalUnits minPage ratio pages cur acc).head? = some p →
        p.start = cur) ∧
      List.Chain' (fun p q => p.stop = q.start)
        (allocGo totalSec totalUnits minPage ratio pages cur acc) ∧
      ((allocGo totalSec totalUnits minPage ratio pages cur acc).map
        (fun p => p.stop - p.start)).sum = totalSec - acc ∧
      (∀ p, (allocGo totalSec totalUnits minPage ratio pages cur acc).getLast? = some p →
        p.stop = cur + (totalSec - acc)) := by
  intro pages
  induction pages with
  | nil => intro cur acc h; exact absurd rfl h
  | cons x tail ih =>
    intro cur acc _
    obtain ⟨a, b⟩ := x
    cases tail with
    | nil =>
      refine ⟨by simp [allocGo], ?_, by simp [allocGo], by simp [allocGo], ?_⟩
      · intro p hp
        simp [allocGo] at hp
        rw [← hp]
      · intro p hp
        simp [allocGo] at hp
        rw [← hp]
    | cons y rest =>
      have ihtail := ih (cur + max (minPage * ratio) (unitsOf a b / totalUnits * totalSec))
        (acc + max (minPage * ratio) (unitsOf a b / totalUnits * totalSec))
        (by simp)
      obtain ⟨hne, hhead, hchain, hsum, hlast⟩ := ihtail
      rw [allocGo]
      obtain ⟨t0, ts, htail⟩ := List.exists_cons_of_ne_nil hne
      refine ⟨by simp, ?_, ?_, ?_, ?_⟩
      · intro p hp
        simp only [List.head?_cons, Option.some.injEq] at hp
        rw [← hp]
      · rw [List.chain'_cons']
        refine ⟨?_, hchain⟩
        intro q hq
        have := hhead q hq
        rw [this]
      · simp only [List.map_cons, List.sum_cons, hsum]
        ring
      · intro p hp
        rw [htail, List.getLast?_cons_cons] at hp
        rw [htail] at hlast
        have := hlast p hp
        rw [this]
        ring

theorem splitBilingualPages_length_pos (maxEq : ℚ) (en zh : List Char) :
    0 < (splitBilingualPages maxEq en zh).length := by
  simp only [splitBilingualPages, List.length_map, List.length_range]
  split <;> split <;> split <;> omega

theorem splitBilingualPages_ne_nil (maxEq : ℚ) (en zh : List Char) :
    splitBilingualPages maxEq en zh ≠ [] :=
  List.length_pos.mp (splitBilingualPages_length_pos maxEq en zh)

/-- In the idealized real-arithmetic model the allocation telescopes
exactly: pages are nonempty, the first page starts at the cue's start,
consecutive pages are contiguous, the ideal page durations sum to
exactly `stop - start`, and the final page ends exactly at the cue's
end.  The program, however, rounds every page boundary to whole
microseconds (`timedelta(seconds=dur)`), so of these only nonemptiness,
the first start and contiguity survive exactly; see the microsecond
model below for what the code actually guarantees. -/
theorem paginate_cue_ideal_conservation (start stop : ℚ) (en zh : List Char)
    (maxEq minPage : ℚ) (h : start < stop) :
    paginate_cue start stop en zh maxEq minPage ≠ [] ∧
    (∀ p, (paginate_cue start stop en zh maxEq minPage).head? = some p →
      p.start = start) ∧
    List.Chain' (fun p q => p.stop = q.start)
      (paginate_cue start stop en zh maxEq minPage) ∧
    ((paginate_cue start stop en zh maxEq minPage).map
      (fun p => p.stop - p.start)).sum = stop - start ∧
    (∀ p, (paginate_cue start stop en zh maxEq minPage).getLast? = some p →
      p.stop = stop) := by
  set pages := splitBilingualPages maxEq en zh with hpages
  set tU := (if (pages.map fun pg => unitsOf pg.1 pg.2).sum = 0 then 1
    else (pages.map fun pg => unitsOf pg.1 pg.2).sum) with htU
  set tS := (if stop - start = 0 then (1 : ℚ) / 1000 else stop - start) with htS
  set rat := (if minPage * pages.length ≤ tS then (1 : ℚ)
    else tS / (minPage * pages.length)) with hrat
  have hpc : paginate_cue start stop en zh maxEq minPage =
      allocGo tS tU minPage rat pages start 0 := rfl
  have hts : tS = stop - start := by
    rw [htS, if_neg]
    exact ne_of_gt (sub_pos.mpr h)
  obtain ⟨hne, hhead, hchain, hsum, hlast⟩ :=
    allocGo_spec tS tU minPage rat pages start 0 (splitBilingualPages_ne_nil maxEq en zh)
  rw [hpc]
  refine ⟨hne, hhead, hchain, ?_, ?_⟩
  · rw [hsum, hts]
    ring
  · intro p hp
    have := hlast p hp
    rw [this, hts]
    ring

/-! Support lemmas for the wrapping engine. -/

theorem charWidth_nonneg (c : Char) : 0 ≤ charWidth c := by
  unfold charWidth
  split
  · exact le_refl 0
  split
  · exact zero_le_one
  split <;> norm_num

theorem eqLen_nil : eqLen [] = 0 := rfl

theorem eqLen_cons (c : Char) (s : List Char) :
    eqLen (c :: s) = charWidth c + eqLen s := by
  simp [eqLen]

theorem eqLen_append (a b : List Char) : eqLen (a ++ b) = eqLen a + eqLen b := by
  simp [eqLen]

theorem eqLen_nonneg (s : List Char) : 0 ≤ eqLen s := by
  induction s with
  | nil => exact le_refl 0
  | cons c rest ih =>
    rw [eqLen_cons]
    have := charWidth_nonneg c
    linarith

theorem eqLen_le_append (a b : List Char) : eqLen a ≤ eqLen (a ++ b) := by
  rw [eqLen_append]
  have := eqLen_nonneg b
  linarith

theorem eqLen_reverse (s : List Char) : eqLen s.reverse = eqLen s :=
  ((s.reverse_perm).map charWidth).sum_eq

theorem eqLen_le_of_sublist {a b : List Char} (h : a.Sublist b) :
    eqLen a ≤ eqLen b := by
  induction h with
  | slnil => exact le_refl _
  | cons c _ ih =>
    rw [eqLen_cons]
    have := charWidth_nonneg c
    linarith
  | cons₂ c _ ih =>
    rw [eqLen_cons, eqLen_cons]
    linarith

theorem pyStrip_sublist (s : List Char) : (pyStrip s).Sublist s := by
  have h1 : (s.dropWhile isPySpace).Sublist s := List.dropWhile_sublist _
  have h2 : ((s.dropWhile isPySpace).reverse.dropWhile isPySpace).Sublist
      (s.dropWhile isPySpace).reverse := List.dropWhile_sublist _
  have h3 := h2.reverse
  rw [List.reverse_reverse] at h3
  exact h3.trans h1

theorem eqLen_pyStrip_le (s : List Char) : eqLen (pyStrip s) ≤ eqLen s :=
  eqLen_le_of_sublist (pyStrip_sublist s)

theorem not_newline_pyStrip {s : List Char} (h : '\n' ∉ s) : '\n' ∉ pyStrip s :=
  fun hm => h ((pyStrip_sublist s).subset hm)

theorem charWidth_of_space {c : Char} (hsp : isPySpace c = true) (hne : c ≠ '\n') :
    charWidth c = 6 / 10 := by
  rw [isPySpace] at hsp
  simp only [Bool.or_eq_true, decide_eq_true_eq] at hsp
  rcases hsp with ((((h | h) | h) | h) | h) | h
  · subst h; simp +decide [charWidth]
  · subst h; simp +decide [charWidth]
  · exact absurd h hne
  · subst h; simp +decide [charWidth]
  · subst h; simp +decide [charWidth]
  · subst h; simp +decide [charWidth]

/-- Joining tokens with single spaces, as the word-packing loop does when
it never breaks. -/
def joinSp : List (List Char) → List Char
  | [] => []
  | [a] => a
  | a :: b :: rest => a ++ ' ' :: joinSp (b :: rest)

theorem joinSp_cons (x : List Char) (L : List (List Char)) :
    joinSp (x :: L) = x ++ (if L = [] then [] else ' ' :: joinSp L) := by
  cases L with
  | nil => simp [joinSp]
  | cons y rest => simp [joinSp]

theorem tokensAcc_ne_nil :
    ∀ (s acc : List Char), ∀ t ∈ tokensAcc s acc, t ≠ [] := by
  intro s
  induction s with
  | nil =>
    intro acc t ht
    by_cases ha : acc = []
    · simp [tokensAcc, ha] at ht
    · simp [tokensAcc, ha] at ht
      subst ht
      simpa using ha
  | cons c rest ih =>
    intro acc t ht
    by_cases hsp : isPySpace c
    · by_cases ha : acc = []
      · rw [tokensAcc, if_pos hsp, if_pos ha] at ht
        exact ih [] t ht
      · rw [tokensAcc, if_pos hsp, if_neg ha] at ht
        rcases List.mem_cons.mp ht with h | h
        · subst h
          simpa using ha
        · exact ih [] t h
    · rw [tokensAcc, if_neg hsp] at ht
      exact ih (c :: acc) t ht

theorem tokens_ne_nil (s : List Char) : ∀ t ∈ tokens s, t ≠ [] :=
  tokensAcc_ne_nil s []

theorem joinSp_tokensAcc_le :
    ∀ (s acc : List Char), '\n' ∉ s →
      eqLen (joinSp (tokensAcc s acc)) ≤ eqLen acc + eqLen s := by
  intro s
  induction s with
  | nil =>
    intro acc _
    by_cases ha : acc = []
    · simp [tokensAcc, ha, joinSp, eqLen_nil]
    · rw [tokensAcc, if_neg ha]
      rw [joinSp, eqLen_reverse, eqLen_nil]
      linarith [le_refl (eqLen acc)]
  | cons c rest ih =>
    intro acc h
    have hc_ne : c ≠ '\n' := fun hc => h (by rw [hc]; exact List.mem_cons_self _ _)
    have hrest : '\n' ∉ rest := fun hm => h (List.mem_cons_of_mem _ hm)
    by_cases hsp : isPySpace c
    · have hw : charWidth c = 6 / 10 := charWidth_of_space hsp hc_ne
      by_cases ha : acc = []
      · rw [tokensAcc, if_pos hsp, if_pos ha]
        have := ih [] hrest
        rw [eqLen_nil] at this
        rw [eqLen_cons, ha, eqLen_nil]
        have := charWidth_nonneg c
        linarith
      · rw [tokensAcc, if_pos hsp, if_neg ha]
        rw [joinSp_cons, eqLen_append, eqLen_reverse, eqLen_cons, hw]
        by_cases hT : tokensAcc rest [] = []
        · rw [if_pos hT, eqLen_nil]
          have := eqLen_nonneg rest
          linarith
        · rw [if_neg hT, eqLen_cons]
          have hsp' : charWidth ' ' = 6 / 10 := by simp +decide [charWidth]
          rw [hsp']
          have := ih [] hrest
          rw [eqLen_nil] at this
          linarith
    · rw [tokensAcc, if_neg hsp]
      have := ih (c :: acc) hrest
      rw [eqLen_cons] at this
      rw [eqLen_cons]
      linarith

theorem joinSp_tokens_le {s : List Char} (h : '\n' ∉ s) :
    eqLen (joinSp (tokens s)) ≤ eqLen s := by
  have := joinSp_tokensAcc_le s [] h
  rw [eqLen_nil] at this
  simpa [tokens] using this

/-- The single line the word loop builds when it never breaks: `cur`
followed by the remaining tokens, each preceded by one space. -/
def joinAll (cur : List Char) (toks : List (List Char)) : List Char :=
  cur ++ (toks.map fun t => ' ' :: t).flatten

theorem joinAll_nil (cur : List Char) : joinAll cur [] = cur := by
  simp [joinAll]

theorem joinAll_cons (cur t : List Char) (ts : List (List Char)) :
    joinAll cur (t :: ts) = joinAll (cur ++ ' ' :: t) ts := by
  simp [joinAll]

theorem joinSp_eq_joinAll (x : List Char) (ts : List (List Char)) :
    joinSp (x :: ts) = joinAll x ts := by
  induction ts generalizing x with
  | nil => simp [joinSp, joinAll]
  | cons y ts ih =>
    rw [joinSp, ih, joinAll_cons, joinAll]
    simp [joinAll]

theorem wrapWords_single (maxEq : ℚ) :
    ∀ (toks : List (List Char)) (cur : List Char), cur ≠ [] →
      eqLen (joinAll cur toks) ≤ maxEq →
      wrapWords maxEq toks cur = [joinAll cur toks] := by
  intro toks
  induction toks with
  | nil =>
    intro cur hcur _
    rw [wrapWords, if_neg hcur, joinAll_nil]
  | cons tok rest ih =>
    intro cur hcur hle
    rw [joinAll_cons] at hle
    have hpend : cur ++ ' ' :: tok ≠ [] := by simp
    have hple : eqLen (cur ++ ' ' :: tok) ≤ maxEq :=
      le_trans (by rw [joinAll]; exact eqLen_le_append _ _) hle
    rw [wrapWords]
    simp only [if_neg hcur]
    rw [if_pos (Or.inl hple)]
    rw [ih (cur ++ ' ' :: tok) hpend hle, joinAll_cons]

theorem wrapChars_single (maxEq : ℚ) :
    ∀ (s cur : List Char), cur ≠ [] → eqLen (cur ++ s) ≤ maxEq →
      wrapChars maxEq s cur = [cur ++ s] := by
  intro s
  induction s with
  | nil =>
    intro cur hcur _
    rw [wrapChars, if_neg hcur, List.append_nil]
  | cons ch rest ih =>
    intro cur hcur hle
    have hple : eqLen (cur ++ [ch]) ≤ maxEq := by
      refine le_trans ?_ hle
      rw [show cur ++ ch :: rest = (cur ++ [ch]) ++ rest by simp]
      exact eqLen_le_append _ _
    rw [wrapChars]
    rw [if_pos (Or.inl hple)]
    rw [ih (cur ++ [ch]) (by simp) (by simpa using hle)]
    simp

theorem wrapWords_start (maxEq : ℚ) (tok : List Char) (rest : List (List Char)) :
    wrapWords maxEq (tok :: rest) [] = wrapWords maxEq rest tok := by
  simp [wrapWords]

theorem wrapChars_start (maxEq : ℚ) (ch : Char) (rest : List Char) :
    wrapChars maxEq (ch :: rest) [] = wrapChars maxEq rest [ch] := by
  simp [wrapChars]

theorem wrapLines_single (maxEq : ℚ) (text : List Char) (hn : '\n' ∉ text)
    (hle : eqLen text ≤ maxEq) :
    wrapLines maxEq text = [] ∨ ∃ l, wrapLines maxEq text = [l] := by
  have hstrip_le : eqLen (pyStrip text) ≤ maxEq :=
    le_trans (eqLen_pyStrip_le text) hle
  have hstrip_nl : '\n' ∉ pyStrip text := not_newline_pyStrip hn
  rw [wrapLines]
  by_cases ht : pyStrip text = []
  · rw [if_pos ht]
    exact Or.inl rfl
  · rw [if_neg ht]
    by_cases htk : 1 < (tokens (pyStrip text)).length
    · rw [if_pos htk]
      obtain ⟨t0, L, hL⟩ := List.exists_cons_of_ne_nil
        (List.length_pos.mp (by omega) : tokens (pyStrip text) ≠ [])
      obtain ⟨t1, rest, hrest⟩ : ∃ t1 rest, L = t1 :: rest := by
        cases L with
        | nil => rw [hL] at htk; simp at htk
        | cons t1 rest => exact ⟨t1, rest, rfl⟩
      subst hrest
      have ht0 : t0 ≠ [] := tokens_ne_nil _ t0 (by rw [hL]; exact List.mem_cons_self _ _)
      have hjoin : eqLen (joinAll t0 (t1 :: rest)) ≤ maxEq := by
        rw [← joinSp_eq_joinAll, ← hL]
        exact le_trans (joinSp_tokens_le hstrip_nl) hstrip_le
      rw [hL, wrapWords_start]
      rw [wrapWords_single maxEq (t1 :: rest) t0 ht0 hjoin]
      exact Or.inr ⟨_, rfl⟩
    · rw [if_neg htk]
      obtain ⟨c, t', hct⟩ := List.exists_cons_of_ne_nil ht
      rw [hct, wrapChars_start]
      have hle' : eqLen ([c] ++ t') ≤ maxEq := by
        rw [hct] at hstrip_le
        simpa using hstrip_le
      rw [wrapChars_single maxEq t' [c] (by simp) hle']
      exact Or.inr ⟨_, rfl⟩

theorem allocGo_singleton (tS tU mp r : ℚ) (a b : List Char) (cur acc : ℚ) :
    allocGo tS tU mp r [(a, b)] cur acc = [⟨cur, cur + (tS - acc), pageText a b⟩] := rfl

theorem splitBilingualPages_of_le_one (maxEq : ℚ) (en zh : List Char)
    (h1 : (if en = [] then [] else wrapPages maxEq en).length ≤ 1)
    (h2 : (if zh = [] then [] else wrapPages maxEq zh).length ≤ 1) :
    splitBilingualPages maxEq en zh =
      [((if en = [] then [] else wrapPages maxEq en).getD 0 [],
        (if zh = [] then [] else wrapPages maxEq zh).getD 0 [])] := by
  rw [splitBilingualPages]
  by_cases h0 : max (if en = [] then [] else wrapPages maxEq en).length
      (if zh = [] then [] else wrapPages maxEq zh).length = 0
  · rw [if_pos h0]
    rfl
  · rw [if_neg h0]
    have hone : max (if en = [] then [] else wrapPages maxEq en).length
        (if zh = [] then [] else wrapPages maxEq zh).length = 1 := by omega
    rw [hone]
    rfl

theorem paginate_cue_of_single_page (start stop : ℚ) (en zh : List Char)
    (maxEq minPage : ℚ) (a b : List Char)
    (hsplit : splitBilingualPages maxEq en zh = [(a, b)]) :
    paginate_cue start stop en zh maxEq minPage =
      [⟨start, start + ((if stop - start = 0 then (1 : ℚ) / 1000 else stop - start) - 0),
        pageText a b⟩] := by
  rw [paginate_cue, hsplit]
  exact allocGo_singleton _ _ _ _ a b start 0

/-- C8: for a cue whose primary and secondary texts each fit on one line
under `maxEquivalentWidth`, pagination is a no-op: exactly one page is
produced and its start/end equal the cue's start/end. -/
theorem paginate_cue_noop (start stop : ℚ) (en zh : List Char) (maxEq minPage : ℚ)
    (h : start < stop) (hen : '\n' ∉ en) (hzh : '\n' ∉ zh)
    (hfen : eqLen en ≤ maxEq) (hfzh : eqLen zh ≤ maxEq) :
    ∃ t, paginate_cue start stop en zh maxEq minPage = [⟨start, stop, t⟩] := by
  have hew : (if en = [] then [] else wrapPages maxEq en).length ≤ 1 := by
    by_cases he : en = []
    · simp [he]
    · rcases wrapLines_single maxEq en hen hfen with h1 | ⟨l, h1⟩ <;>
        simp [he, wrapPages, h1]
  have hzw : (if zh = [] then [] else wrapPages maxEq zh).length ≤ 1 := by
    by_cases he : zh = []
    · simp [he]
    · rcases wrapLines_single maxEq zh hzh hfzh with h1 | ⟨l, h1⟩ <;>
        simp [he, wrapPages, h1]
  have hsplit := splitBilingualPages_of_le_one maxEq en zh hew hzw
  refine ⟨pageText ((if en = [] then [] else wrapPages maxEq en).getD 0 [])
    ((if zh = [] then [] else wrapPages maxEq zh).getD 0 []), ?_⟩
  rw [paginate_cue_of_single_page start stop en zh maxEq minPage _ _ hsplit]
  have hts : start + ((if stop - start = 0 then (1 : ℚ) / 1000 else stop - start) - 0)
      = stop := by
    rw [if_neg (ne_of_gt (sub_pos.mpr h))]
    ring
  rw [hts]

/-- Witness for C8: a short bilingual cue is returned as a single page
spanning exactly its original time interval. -/
theorem paginate_cue_noop_witness :
    ∃ t, paginate_cue 0 5 "hi".data "你好".data 30 (9 / 10) = [⟨0, 5, t⟩] := by
  have ha : charWidth 'h' = 6 / 10 := by simp +decide [charWidth]
  have hb : charWidth 'i' = 6 / 10 := by simp +decide [charWidth]
  have hc : charWidth '你' = 1 := by simp +decide [charWidth]
  have hd : charWidth '好' = 1 := by simp +decide [charWidth]
  refine paginate_cue_noop 0 5 "hi".data "你好".data 30 (9 / 10)
    (by norm_num) (by decide) (by decide) ?_ ?_
  · show eqLen ['h', 'i'] ≤ 30
    rw [eqLen_cons, eqLen_cons, eqLen_nil, ha, hb]
    norm_num
  · show eqLen ['你', '好'] ≤ 30
    rw [eqLen_cons, eqLen_cons, eqLen_nil, hc, hd]
    norm_num

/-! C7: the width bound on wrapped lines. -/

theorem wrapWords_mem (maxEq : ℚ) (T : List (List Char)) :
    ∀ (toks : List (List Char)) (cur : List Char),
      (∀ t ∈ toks, t ∈ T) → (cur = [] ∨ eqLen cur ≤ maxEq ∨ cur ∈ T) →
      ∀ l ∈ wrapWords maxEq toks cur, eqLen l ≤ maxEq ∨ l ∈ T := by
  intro toks
  induction toks with
  | nil =>
    intro cur _ hcur l hl
    rw [wrapWords] at hl
    by_cases hc : cur = []
    · rw [if_pos hc] at hl
      simp at hl
    · rw [if_neg hc] at hl
      rw [List.mem_singleton] at hl
      subst hl
      rcases hcur with hx | hx | hx
      · exact absurd hx hc
      · exact Or.inl hx
      · exact Or.inr hx
  | cons tok rest ih =>
    intro cur htoks hcur l hl
    rw [wrapWords] at hl
    by_cases hcond : eqLen (if cur = [] then tok else cur ++ ' ' :: tok) ≤ maxEq ∨ cur = []
    · rw [if_pos hcond] at hl
      refine ih (if cur = [] then tok else cur ++ ' ' :: tok)
        (fun t ht => htoks t (List.mem_cons_of_mem _ ht)) ?_ l hl
      rcases hcond with hx | hx
      · exact Or.inr (Or.inl hx)
      · rw [if_pos hx]
        exact Or.inr (Or.inr (htoks tok (List.mem_cons_self _ _)))
    · rw [if_neg hcond] at hl
      rcases List.mem_cons.mp hl with hx | hx
      · subst hx
        rcases hcur with hy | hy | hy
        · exact absurd (Or.inr hy) hcond
        · exact Or.inl hy
        · exact Or.inr hy
      · exact ih tok (fun t ht => htoks t (List.mem_cons_of_mem _ ht))
          (Or.inr (Or.inr (htoks tok (List.mem_cons_self _ _)))) l hx

theorem wrapChars_mem (maxEq : ℚ) (S : List Char) :
    ∀ (s cur : List Char),
      (∀ c ∈ s, c ∈ S) → (cur = [] ∨ eqLen cur ≤ maxEq ∨ ∃ c ∈ S, cur = [c]) →
      ∀ l ∈ wrapChars maxEq s cur,
        eqLen l ≤ maxEq ∨ ∃ c ∈ S, l = [c] := by
  intro s
  induction s with
  | nil =>
    intro cur _ hcur l hl
    rw [wrapChars] at hl
    by_cases hc : cur = []
    · rw [if_pos hc] at hl
      simp at hl
    · rw [if_neg hc] at hl
      rw [List.mem_singleton] at hl
      subst hl
      rcases hcur with hx | hx | hx
      · exact absurd hx hc
      · exact Or.inl hx
      · exact Or.inr hx
  | cons ch rest ih =>
    intro cur hchars hcur l hl
    rw [wrapChars] at hl
    by_cases hcond : eqLen (cur ++ [ch]) ≤ maxEq ∨ cur = []
    · rw [if_pos hcond] at hl
      refine ih (cur ++ [ch]) (fun c hc => hchars c (List.mem_cons_of_mem _ hc)) ?_ l hl
      rcases hcond with hx | hx
      · exact Or.inr (Or.inl hx)
      · rw [hx, List.nil_append]
        exact Or.inr (Or.inr ⟨ch, hchars ch (List.mem_cons_self _ _), rfl⟩)
    · rw [if_neg hcond] at hl
      rcases List.mem_cons.mp hl with hx | hx
      · subst hx
        rcases hcur with hy | hy | hy
        · exact absurd (Or.inr hy) hcond
        · exact Or.inl hy
        · exact Or.inr hy
      · exact ih [ch] (fun c hc => hchars c (List.mem_cons_of_mem _ hc))
          (Or.inr (Or.inr ⟨ch, hchars ch (List.mem_cons_self _ _), rfl⟩)) l hx

/-- C7 (amended): every line the wrapping produces either respects the
equivalent-width bound, or is a single indivisible unit — one whitespace
token of the stripped text in word mode, or one character in character
mode — that is emitted as-is even when it alone exceeds the bound. -/
theorem wrapLines_width (maxEq : ℚ) (text : List Char) :
    ∀ l ∈ wrapLines maxEq text,
      eqLen l ≤ maxEq ∨ l ∈ tokens (pyStrip text) ∨ ∃ c ∈ pyStrip text, l = [c] := by
  intro l hl
  rw [wrapLines] at hl
  by_cases ht : pyStrip text = []
  · rw [if_pos ht] at hl
    simp at hl
  · rw [if_neg ht] at hl
    by_cases htk : 1 < (tokens (pyStrip text)).length
    · rw [if_pos htk] at hl
      rcases wrapWords_mem maxEq (tokens (pyStrip text)) (tokens (pyStrip text)) []
        (fun t ht => ht) (Or.inl rfl) l hl with hx | hx
      · exact Or.inl hx
      · exact Or.inr (Or.inl hx)
    · rw [if_neg htk] at hl
      rcases wrapChars_mem maxEq (pyStrip text) (pyStrip text) []
        (fun c hc => hc) (Or.inl rfl) l hl with hx | hx
      · exact Or.inl hx
      · exact Or.inr (Or.inr hx)

/-- Concrete evaluation of the wrapper: `"ab"` fits on one line under
width 2. -/
theorem wrapLines_ab : wrapLines 2 ['a', 'b'] = [['a', 'b']] := by
  have h2 : eqLen (['a'] ++ ['b']) ≤ (2 : ℚ) := by
    rw [eqLen_append, eqLen_cons, eqLen_nil, eqLen_cons, eqLen_nil,
      show charWidth 'a' = 6 / 10 from by simp +decide [charWidth],
      show charWidth 'b' = 6 / 10 from by simp +decide [charWidth]]
    norm_num
  rw [wrapLines]
  rw [if_neg (show ¬pyStrip ['a', 'b'] = [] from by decide)]
  rw [if_neg (show ¬1 < (tokens (pyStrip ['a', 'b'])).length from by decide)]
  rw [show pyStrip ['a', 'b'] = ['a', 'b'] from rfl]
  rw [wrapChars_start, wrapChars_single 2 ['b'] ['a'] (by simp) h2]
  rfl

/-- Witness for the amended C7 at a concrete input. -/
theorem wrapLines_width_witness :
    eqLen ['a', 'b'] ≤ 2 ∨ ['a', 'b'] ∈ tokens (pyStrip ['a', 'b']) ∨
      ∃ c ∈ pyStrip ['a', 'b'], ['a', 'b'] = [c] :=
  wrapLines_width 2 ['a', 'b'] ['a', 'b'] (by rw [wrapLines_ab]; exact List.mem_singleton_self _)

/-- C7 counterexample: with `maxEquivalentWidth = 1/2`, every produced
line is a single ASCII character of width 0.6 > 1/2 — the universal
bound claimed by the spec does not hold for unbreakable units. -/
theorem wrapLines_width_counterexample :
    wrapLines (1 / 2) ['a', 'b'] = [['a'], ['b']] ∧ ¬ eqLen ['a'] ≤ (1 / 2 : ℚ) := by
  have hwa : charWidth 'a' = 6 / 10 := by simp +decide [charWidth]
  have hwb : charWidth 'b' = 6 / 10 := by simp +decide [charWidth]
  have h1 : ¬ eqLen ['a'] ≤ (1 / 2 : ℚ) := by
    rw [eqLen_cons, eqLen_nil, hwa]
    norm_num
  have h2 : ¬ (eqLen (['a'] ++ ['b']) ≤ (1 / 2 : ℚ) ∨ (['a'] : List Char) = []) := by
    rintro (hx | hx)
    · rw [eqLen_append, eqLen_cons, eqLen_nil, eqLen_cons, eqLen_nil, hwa, hwb] at hx
      norm_num at hx
    · simp at hx
  refine ⟨?_, h1⟩
  rw [wrapLines]
  rw [if_neg (show ¬pyStrip ['a', 'b'] = [] from by decide)]
  rw [if_neg (show ¬1 < (tokens (pyStrip ['a', 'b'])).length from by decide)]
  rw [show pyStrip ['a', 'b'] = ['a', 'b'] from rfl]
  rw [wrapChars_start, wrapChars, if_neg h2, wrapChars,
    if_neg (show ¬(['b'] : List Char) = [] from by simp)]

/-! C1: the quantized time allocation.  The idealized allocation
telescopes exactly (`paginate_cue_ideal_conservation`), but the program
rounds every page boundary to whole microseconds, so exact conservation
fails; what survives is contiguity plus a drift bound of half a
microsecond per page. -/

theorem roundHalfEven_sub_le (q : ℚ) : |(roundHalfEven q : ℚ) - q| ≤ 1 / 2 := by
  have h1 : (⌊q⌋ : ℚ) ≤ q := Int.floor_le q
  have h2 : q < ⌊q⌋ + 1 := Int.lt_floor_add_one q
  rw [roundHalfEven]
  split_ifs with ha hb hc
  · rw [abs_le]
    constructor <;> linarith
  · rw [abs_le]
    push_cast
    constructor <;> linarith
  · rw [abs_le]
    constructor <;> linarith
  · rw [abs_le]
    push_cast
    constructor <;> linarith

theorem allocGoUs_singleton (tS tU mp r : ℚ) (a b : List Char) (cur : ℤ) (acc : ℚ) :
    allocGoUs tS tU mp r [(a, b)] cur acc =
      [⟨cur, cur + roundHalfEven ((tS - acc) * 1000000), pageText a b⟩] := rfl

theorem allocGoUs_cons (tS tU mp r : ℚ) (a b : List Char)
    (q : List Char × List Char) (rest : List (List Char × List Char))
    (cur : ℤ) (acc : ℚ) :
    allocGoUs tS tU mp r ((a, b) :: q :: rest) cur acc =
      ⟨cur, cur + roundHalfEven (max (mp * r) (unitsOf a b / tU * tS) * 1000000),
        pageText a b⟩ ::
      allocGoUs tS tU mp r (q :: rest)
        (cur + roundHalfEven (max (mp * r) (unitsOf a b / tU * tS) * 1000000))
        (acc + max (mp * r) (unitsOf a b / tU * tS)) := rfl

theorem allocGoUs_spec (totalSec totalUnits minPage ratio : ℚ) :
    ∀ (pages : List (List Char × List Char)) (cur : ℤ) (acc : ℚ), pages ≠ [] →
      allocGoUs totalSec totalUnits minPage ratio pages cur acc ≠ [] ∧
      (∀ p, (allocGoUs totalSec totalUnits minPage ratio pages cur acc).head? = some p →
        p.start = cur) ∧
      List.Chain' (fun p q => p.stop = q.start)
        (allocGoUs totalSec totalUnits minPage ratio pages cur acc) ∧
      (∀ p, (allocGoUs totalSec totalUnits minPage ratio pages cur acc).getLast? = some p →
        ((allocGoUs totalSec totalUnits minPage ratio pages cur acc).map
          (fun p => p.stop - p.start)).sum = p.stop - cur ∧
        |(p.stop : ℚ) - ((cur : ℚ) + (totalSec - acc) * 1000000)| ≤
          (pages.length : ℚ) / 2) := by
  intro pages
  induction pages with
  | nil => intro cur acc h; exact absurd rfl h
  | cons x tail ih =>
    intro cur acc _
    obtain ⟨a, b⟩ := x
    cases tail with
    | nil =>
      rw [allocGoUs_singleton]
      refine ⟨by simp, ?_, by simp, ?_⟩
      · intro p hp
        simp only [List.head?_cons, Option.some.injEq] at hp
        rw [← hp]
      · intro p hp
        simp only [List.getLast?_singleton, Option.some.injEq] at hp
        subst hp
        constructor
        · simp
        · have hb := roundHalfEven_sub_le ((totalSec - acc) * 1000000)
          have heq : ((cur + roundHalfEven ((totalSec - acc) * 1000000) : ℤ) : ℚ) -
              ((cur : ℚ) + (totalSec - acc) * 1000000) =
              ((roundHalfEven ((totalSec - acc) * 1000000) : ℤ) : ℚ) -
                (totalSec - acc) * 1000000 := by
            push_cast
            ring
          simp only [List.length_singleton]
          rw [heq]
          simpa using hb
    | cons y rest =>
      rw [allocGoUs_cons]
      obtain ⟨hne, hhead, hchain, hlast⟩ :=
        ih (cur + roundHalfEven
            (max (minPage * ratio) (unitsOf a b / totalUnits * totalSec) * 1000000))
          (acc + max (minPage * ratio) (unitsOf a b / totalUnits * totalSec)) (by simp)
      refine ⟨by simp, ?_, ?_, ?_⟩
      · intro p hp
        simp only [List.head?_cons, Option.some.injEq] at hp
        rw [← hp]
      · rw [List.chain'_cons']
        refine ⟨?_, hchain⟩
        intro q hq
        rw [hhead q hq]
      · intro p hp
        obtain ⟨t0, ts, htail⟩ := List.exists_cons_of_ne_nil hne
        rw [htail, List.getLast?_cons_cons, ← htail] at hp
        obtain ⟨hsum, hbound⟩ := hlast p hp
        constructor
        · simp only [List.map_cons, List.sum_cons, hsum]
          omega
        · have hb := roundHalfEven_sub_le
            (max (minPage * ratio) (unitsOf a b / totalUnits * totalSec) * 1000000)
          have htri := abs_sub_le ((p.stop : ℚ))
            (((cur + roundHalfEven
                (max (minPage * ratio) (unitsOf a b / totalUnits * totalSec) * 1000000) : ℤ) : ℚ) +
              (totalSec - (acc + max (minPage * ratio)
                (unitsOf a b / totalUnits * totalSec))) * 1000000)
            ((cur : ℚ) + (totalSec - acc) * 1000000)
          have heq : (((cur + roundHalfEven
                (max (minPage * ratio) (unitsOf a b / totalUnits * totalSec) * 1000000) : ℤ) : ℚ) +
              (totalSec - (acc + max (minPage * ratio)
                (unitsOf a b / totalUnits * totalSec))) * 1000000) -
              ((cur : ℚ) + (totalSec - acc) * 1000000) =
              ((roundHalfEven
                (max (minPage * ratio) (unitsOf a b / totalUnits * totalSec) * 1000000) : ℤ) : ℚ) -
                max (minPage * ratio) (unitsOf a b / totalUnits * totalSec) * 1000000 := by
            push_cast
            ring
          rw [heq] at htri
          have hlen : (((a, b) :: y :: rest).length : ℚ) = ((y :: rest).length : ℚ) + 1 := by
            push_cast [List.length_cons]
            ring
          rw [hlen]
          linarith

/-- C1 (amended): pagination of a bilingual cue yields a nonempty page
list whose first page starts at the cue's start and whose pages are
exactly contiguous (each page starts at the previous page's end), and
the integer-microsecond page durations telescope to the final page's
end minus the cue's start; but because every page boundary is the
previous one plus the float duration rounded to whole microseconds
(`timedelta(seconds=dur)`), the final page's end — and hence the sum of
page durations — equals the cue's end only up to an accumulated rounding
drift of at most half a microsecond per page; exact equality can fail. -/
theorem paginate_cue_us_near_conservation (start stop : ℤ) (en zh : List Char)
    (maxEq minPage : ℚ) (h : start < stop) :
    paginate_cue_us start stop en zh maxEq minPage ≠ [] ∧
    (∀ p, (paginate_cue_us start stop en zh maxEq minPage).head? = some p →
      p.start = start) ∧
    List.Chain' (fun p q => p.stop = q.start)
      (paginate_cue_us start stop en zh maxEq minPage) ∧
    (∀ p, (paginate_cue_us start stop en zh maxEq minPage).getLast? = some p →
      ((paginate_cue_us start stop en zh maxEq minPage).map
        (fun p => p.stop - p.start)).sum = p.stop - start ∧
      |(p.stop : ℚ) - (stop : ℚ)| ≤
        ((splitBilingualPages maxEq en zh).length : ℚ) / 2) := by
  set pages := splitBilingualPages maxEq en zh with hpages
  set tU := (if (pages.map fun pg => unitsOf pg.1 pg.2).sum = 0 then 1
    else (pages.map fun pg => unitsOf pg.1 pg.2).sum) with htU
  set tS := (if ((stop - start : ℤ) : ℚ) / 1000000 = 0 then (1 : ℚ) / 1000
    else ((stop - start : ℤ) : ℚ) / 1000000) with htS
  set rat := (if minPage * pages.length ≤ tS then (1 : ℚ)
    else tS / (minPage * pages.length)) with hrat
  have hpc : paginate_cue_us start stop en zh maxEq minPage =
      allocGoUs tS tU minPage rat pages start 0 := rfl
  have hpos : (0 : ℚ) < ((stop - start : ℤ) : ℚ) / 1000000 := by
    apply div_pos _ (by norm_num)
    exact_mod_cast Int.sub_pos.mpr h
  have hts : tS = ((stop - start : ℤ) : ℚ) / 1000000 := by
    rw [htS, if_neg (ne_of_gt hpos)]
  have harith : (start : ℚ) + (((stop - start : ℤ) : ℚ) / 1000000 - 0) * 1000000 =
      (stop : ℚ) := by
    rw [sub_zero, div_mul_cancel₀ _ (by norm_num : (1000000 : ℚ) ≠ 0)]
    push_cast
    ring
  obtain ⟨hne, hhead, hchain, hlast⟩ :=
    allocGoUs_spec tS tU minPage rat pages start 0
      (splitBilingualPages_ne_nil maxEq en zh)
  rw [hpc]
  refine ⟨hne, hhead, hchain, ?_⟩
  intro p hp
  obtain ⟨hsum, hbound⟩ := hlast p hp
  refine ⟨hsum, ?_⟩
  rw [hts, harith] at hbound
  exact hbound

/-- Witness for the amended C1: a concrete 1-second bilingual cue yields
a nonempty, exactly contiguous page list. -/
theorem paginate_cue_us_near_conservation_witness :
    paginate_cue_us 0 1000000 "hi".data "你好".data 30 (9 / 10) ≠ [] ∧
    List.Chain' (fun p q => p.stop = q.start)
      (paginate_cue_us 0 1000000 "hi".data "你好".data 30 (9 / 10)) :=
  ⟨(paginate_cue_us_near_conservation 0 1000000 "hi".data "你好".data 30 (9 / 10)
      (by norm_num)).1,
   (paginate_cue_us_near_conservation 0 1000000 "hi".data "你好".data 30 (9 / 10)
      (by norm_num)).2.2.1⟩

/-- Concrete evaluation of the wrapper: under width 1.2 the text
`aaaaaa` wraps into three two-character lines. -/
theorem wrapLines_aaaaaa :
    wrapLines (12 / 10) "aaaaaa".data = [['a', 'a'], ['a', 'a'], ['a', 'a']] := by
  have hwa : charWidth 'a' = 6 / 10 := by simp +decide [charWidth]
  have hyes : eqLen (['a'] ++ ['a']) ≤ (12 / 10 : ℚ) ∨ (['a'] : List Char) = [] := by
    left
    simp only [eqLen_append, eqLen_cons, eqLen_nil, hwa]
    norm_num
  have hno : ¬(eqLen (['a', 'a'] ++ ['a']) ≤ (12 / 10 : ℚ) ∨
      (['a', 'a'] : List Char) = []) := by
    rintro (hx | hx)
    · simp only [eqLen_append, eqLen_cons, eqLen_nil, hwa] at hx
      norm_num at hx
    · simp at hx
  have happ : (['a'] ++ ['a'] : List Char) = ['a', 'a'] := rfl
  rw [wrapLines]
  rw [if_neg (show ¬pyStrip "aaaaaa".data = [] from by decide)]
  rw [if_neg (show ¬1 < (tokens (pyStrip "aaaaaa".data)).length from by decide)]
  rw [show pyStrip "aaaaaa".data = ['a', 'a', 'a', 'a', 'a', 'a'] from rfl]
  rw [wrapChars_start]
  rw [wrapChars, if_pos hyes, happ]
  rw [wrapChars, if_neg hno]
  rw [wrapChars, if_pos hyes, happ]
  rw [wrapChars, if_neg hno]
  rw [wrapChars, if_pos hyes, happ]
  rw [wrapChars, if_neg (show ¬(['a', 'a'] : List Char) = [] from by simp)]

/-- C1 counterexample: a 1-second bilingual cue (0 → 1 000 000 µs) whose
text wraps into three equal-width pages gets three page durations of
333 333 µs each — the `timedelta(seconds=dur)` conversion rounds each
1/3-second share down to whole microseconds — so the durations sum to
999 999 µs, not the cue's 1 000 000 µs span, and the final page ends at
999 999 µs, not at the cue's end: exact conservation fails. -/
theorem paginate_cue_us_counterexample :
    paginate_cue_us 0 1000000 "aaaaaa".data [] (12 / 10) (9 / 10) =
      [⟨0, 333333, ['a', 'a']⟩, ⟨333333, 666666, ['a', 'a']⟩,
        ⟨666666, 999999, ['a', 'a']⟩] ∧
    ((paginate_cue_us 0 1000000 "aaaaaa".data [] (12 / 10) (9 / 10)).map
      (fun p => p.stop - p.start)).sum ≠ 1000000 - 0 ∧
    (paginate_cue_us 0 1000000 "aaaaaa".data [] (12 / 10) (9 / 10)).getLast? =
      some ⟨666666, 999999, ['a', 'a']⟩ ∧
    (999999 : ℤ) ≠ 1000000 := by
  have hwa : charWidth 'a' = 6 / 10 := by simp +decide [charWidth]
  have hu : unitsOf ['a', 'a'] [] = 6 / 5 := by
    rw [unitsOf]
    simp only [eqLen_cons, eqLen_nil, hwa]
    norm_num
  have hwp : wrapPages (12 / 10) "aaaaaa".data = [['a', 'a'], ['a', 'a'], ['a', 'a']] := by
    rw [wrapPages, wrapLines_aaaaaa]
    rfl
  have hsplit : splitBilingualPages (12 / 10) "aaaaaa".data [] =
      [(['a', 'a'], []), (['a', 'a'], []), (['a', 'a'], [])] := by
    rw [splitBilingualPages, hwp]
    rfl
  have hpc : paginate_cue_us 0 1000000 "aaaaaa".data [] (12 / 10) (9 / 10) =
      allocGoUs 1 (18 / 5) (9 / 10) (10 / 27)
        [(['a', 'a'], []), (['a', 'a'], []), (['a', 'a'], [])] 0 0 := by
    rw [paginate_cue_us, hsplit]
    norm_num [hu]
  have hfl : ⌊(1000000 : ℚ) / 3⌋ = 333333 := by
    rw [Int.floor_eq_iff]
    norm_num
  have hr3 : roundHalfEven ((1000000 : ℚ) / 3) = 333333 := by
    simp only [roundHalfEven, hfl]
    norm_num
  have hdur : max ((9 / 10 : ℚ) * (10 / 27)) (unitsOf ['a', 'a'] [] / (18 / 5) * 1) =
      1 / 3 := by
    rw [hu]
    norm_num
  have hthird : ((1 / 3 : ℚ) * 1000000) = 1000000 / 3 := by norm_num
  have hlastdur : ((1 : ℚ) - (0 + 1 / 3 + 1 / 3)) * 1000000 = 1000000 / 3 := by norm_num
  have hpt : pageText ['a', 'a'] [] = ['a', 'a'] := rfl
  have heval : paginate_cue_us 0 1000000 "aaaaaa".data [] (12 / 10) (9 / 10) =
      [⟨0, 333333, ['a', 'a']⟩, ⟨333333, 666666, ['a', 'a']⟩,
        ⟨666666, 999999, ['a', 'a']⟩] := by
    rw [hpc]
    rw [allocGoUs_cons, hdur, hthird, hr3]
    rw [allocGoUs_cons, hdur, hthird, hr3]
    rw [allocGoUs_singleton, hlastdur, hr3]
    simp only [hpt]
    norm_num
  refine ⟨heval, ?_, ?_, by decide⟩
  · rw [heval]
    decide
  · rw [heval]
    rfl

end TransTube
